import Mathlib

/-!
Verification of the amFOSS Daemon (amd) recurring-task subsystem.

The Rust source is shallowly embedded: pure computations become Lean
functions, fallible operations return `Except`, the concurrent
scheduler loop becomes a step relation on explicit job states, and
machine-integer casts are made explicit with `% 2^w` arithmetic on
`Int`/`Nat`.  Absolute times are modelled as integer seconds since an
epoch; a timezone is an integer offset in seconds east of UTC.
-/

namespace Amd

/-! ## Clock utilities

The `utils` module (declared by `main.rs` as `mod utils;`) is not part
of the available sources; only its callers are
(`tasks.rs` uses `time_until(5, 0)`, `tasks/lab_attendance.rs` uses
`time_until(18, 00)`).  It is modelled from the spec. -/

/-- Modelled from the spec: `utils::time::time_until` (the spec's
`duration_until(target_hour, target_minute)`), whose source file is not
available.  `now` is the current time in seconds in the fixed
organizational timezone; the result is the number of seconds until the
next future occurrence of `hour:minute`, today if that time-of-day has
not yet arrived, otherwise tomorrow (a full 24 h when `now` is exactly
the target instant). -/
def time_until (now : Nat) (hour minute : Nat) : Nat :=
  let target := hour * 3600 + minute * 60
  let secOfDay := now % 86400
  if secOfDay < target then target - secOfDay else target + 86400 - secOfDay

/-- Embeds `StatusUpdateCheck::run_in` from `src/tasks.rs` and
`src/tasks/status_update.rs`: both return `time_until(5, 0)`. -/
def status_update_run_in (now : Nat) : Nat :=
  time_until now 5 0

/-- Repeated evaluation of `run_in` at a fixed clock reading, indexed by
call count: the list of results of `k` successive calls. -/
def run_in_calls (now k : Nat) : List Nat :=
  (List.range k).map (fun _ => status_update_run_in now)

end Amd

namespace Amd

/-! ## Scheduler step relation

The `scheduler` module (declared by `main.rs` as `mod scheduler;`, and
invoked as `scheduler::run_scheduler(ctx.clone()).await`) is not part of
the available sources.  Its per-job loop is modelled from the spec's
state machine: `IDLE → (compute delay) → WAITING → (delay elapses) →
RUNNING → (execute completes) → IDLE → …`, one independent sequential
loop per registered job, loops of different jobs interleaving freely. -/

/-- Modelled from the spec: the phase of one job's loop in the
scheduler's per-job state machine. -/
inductive Phase where
  | idle
  | waiting
  | running
deriving DecidableEq

/-- Modelled from the spec: the state of one job's loop, instrumented
with how many runs have started and how many have completed. -/
structure JobState where
  phase : Phase
  started : Nat
  completed : Nat
deriving DecidableEq

/-- Modelled from the spec: one transition of a single job's strictly
sequential loop (compute delay, then sleep, then run, then repeat). -/
inductive JobStep : JobState → JobState → Prop where
  | computeDelay (s c : Nat) :
      JobStep ⟨.idle, s, c⟩ ⟨.waiting, s, c⟩
  | startRun (s c : Nat) :
      JobStep ⟨.waiting, s, c⟩ ⟨.running, s + 1, c⟩
  | finishRun (s c : Nat) :
      JobStep ⟨.running, s, c⟩ ⟨.idle, s, c + 1⟩

/-- Modelled from the spec: a scheduler state is one loop state per
registered job; a scheduler step advances exactly one job's loop, so
distinct jobs' loops interleave arbitrarily. -/
inductive SchedStep : List JobState → List JobState → Prop where
  | step (js : List JobState) (i : Nat) (hi : i < js.length)
      (next : JobState) (h : JobStep (js.get ⟨i, hi⟩) next) :
      SchedStep js (js.set i next)

/-- Modelled from the spec: the scheduler states reachable from the
initial state in which every registered job is idle with no runs
started. -/
inductive SchedReachable : List JobState → Prop where
  | init (n : Nat) : SchedReachable (List.replicate n ⟨.idle, 0, 0⟩)
  | step {a b : List JobState} :
      SchedReachable a → SchedStep a b → SchedReachable b

/-- A single job's loop never has more than one run in flight: a run is
in flight exactly when the phase is `running`, and then exactly one run
has started but not completed. -/
def JobState.singleFlight (j : JobState) : Prop :=
  (j.phase = .running → j.started = j.completed + 1) ∧
  (j.phase ≠ .running → j.started = j.completed)

theorem jobStep_preserves_singleFlight {a b : JobState}
    (hstep : JobStep a b) (ha : a.singleFlight) : b.singleFlight := by
  obtain ⟨h1, h2⟩ := ha
  cases hstep with
  | computeDelay s c =>
      refine ⟨fun h => by simp at h, fun _ => ?_⟩
      exact h2 (by simp)
  | startRun s c =>
      have hs : s = c := h2 (by simp)
      exact ⟨fun _ => by simp [hs], fun h => by simp at h⟩
  | finishRun s c =>
      have hs : s = c + 1 := h1 rfl
      exact ⟨fun h => by simp at h, fun _ => by simp [hs]⟩

/-! ## Data model (`src/graphql/models.rs`) -/

/-- Embeds `Streak` from `src/graphql/models.rs` (i32 fields modelled as
`Int`). -/
structure Streak where
  current_streak : Int
  max_streak : Int
deriving DecidableEq

/-- Embeds `StreakWithMemberId` from `src/graphql/models.rs`. -/
structure StreakWithMemberId where
  member_id : Int
  current_streak : Int
  max_streak : Int
deriving DecidableEq

/-- Embeds `Member` from `src/graphql/models.rs`. -/
structure Member where
  member_id : Int
  name : String
  discord_id : String
  group_id : Int
  streak : List Streak
deriving DecidableEq

/-- Embeds `AttendanceRecord` from `src/graphql/models.rs`. -/
structure AttendanceRecord where
  name : String
  year : Int
  is_present : Bool
  time_in : Option String
deriving DecidableEq

/-! ## GraphQL queries (`src/graphql/queries.rs`)

The network round trip is abstracted to its observable result: whether
`ROOT_URL` was set, whether the HTTP POST succeeded, whether the
response status was successful, and the response body as an optional
JSON value (`none` models a body that is not JSON). -/

/-- A `serde_json::Value`. -/
inductive Json where
  | null
  | bool (b : Bool)
  | num (n : Int)
  | str (s : String)
  | arr (xs : List Json)
  | obj (fields : List (String × Json))

/-- Embeds `serde_json::Value::get(key)` on objects. -/
def Json.get : Json → String → Option Json
  | .obj fields, key => fields.lookup key
  | _, _ => none

/-- Embeds `serde_json::Value::as_array`. -/
def Json.asArray : Json → Option (List Json)
  | .arr xs => some xs
  | _ => none

/-- Embeds `serde_json::Value::as_str`. -/
def Json.asStr : Json → Option String
  | .str s => some s
  | _ => none

/-- Embeds `serde_json::Value::as_i64`: an integral number fitting in a
signed 64-bit word. -/
def Json.asI64 : Json → Option Int
  | .num n =>
      if -9223372036854775808 ≤ n ∧ n < 9223372036854775808 then some n
      else none
  | _ => none

/-- Embeds serde deserialization of an `i32` field. -/
def Json.asI32 : Json → Option Int
  | .num n => if -2147483648 ≤ n ∧ n < 2147483648 then some n else none
  | _ => none

/-- The `as i32` truncating cast applied to an `i64` value. -/
def wrapI32 (n : Int) : Int :=
  (n + 2147483648) % 4294967296 - 2147483648

/-- Abstraction of the observable outcome of the HTTP round trip inside
a query: the response status and the response body parsed as JSON
(`none` when the body is not valid JSON). -/
structure HttpResponse where
  status_success : Bool
  body_json : Option Json

/-- The failure cases of `src/graphql/queries.rs` (all produced via
`anyhow`): missing `ROOT_URL`, failed POST, unsuccessful HTTP status,
non-JSON body, missing expected data fields, and model parse failure. -/
inductive ApiError where
  | envMissing
  | sendFailed
  | badStatus
  | parseJsonFailed
  | malformedResponse
  | parseModelFailed
deriving DecidableEq

/-- True exactly when an `Except` result is the `error` case. -/
def isError {α : Type} (e : Except ApiError α) : Bool :=
  match e with
  | .error _ => true
  | .ok _ => false

/-- Embeds serde deserialization of `Streak` from a JSON value. -/
def parseStreak (j : Json) : Option Streak := do
  let cs ← (j.get "currentStreak").bind Json.asI32
  let ms ← (j.get "maxStreak").bind Json.asI32
  pure ⟨cs, ms⟩

/-- Embeds serde deserialization of `StreakWithMemberId`. -/
def parseStreakWithId (j : Json) : Option StreakWithMemberId := do
  let mid ← (j.get "memberId").bind Json.asI32
  let cs ← (j.get "currentStreak").bind Json.asI32
  let ms ← (j.get "maxStreak").bind Json.asI32
  pure ⟨mid, cs, ms⟩

/-- Embeds serde deserialization of `Member` (the `streak` field has
`serde(default)`, so a missing field becomes the empty list). -/
def parseMember (j : Json) : Option Member := do
  let mid ← (j.get "memberId").bind Json.asI32
  let name ← (j.get "name").bind Json.asStr
  let did ← (j.get "discordId").bind Json.asStr
  let gid ← (j.get "groupId").bind Json.asI32
  let streaks ← match j.get "streak" with
    | none => some []
    | some s => s.asArray.bind (List.mapM parseStreak)
  pure ⟨mid, name, did, gid, streaks⟩

/-- Embeds `fetch_members` from `src/graphql/queries.rs`: error when
`ROOT_URL` is missing, the POST fails, the HTTP status is unsuccessful,
the body is not JSON, `data.members` is missing or not an array, or the
array does not deserialize into `Vec<Member>`. -/
def fetch_members (rootUrl : Option String) (sendOk : Bool)
    (resp : HttpResponse) : Except ApiError (List Member) :=
  match rootUrl with
  | none => .error .envMissing
  | some _ =>
    if sendOk = false then .error .sendFailed
    else if resp.status_success = false then .error .badStatus
    else
      match resp.body_json with
      | none => .error .parseJsonFailed
      | some j =>
        match ((j.get "data").bind (fun d => d.get "members")).bind
            Json.asArray with
        | none => .error .malformedResponse
        | some arr =>
          match arr.mapM parseMember with
          | none => .error .parseModelFailed
          | some members => .ok members

/-- Embeds `fetch_streaks` from `src/graphql/queries.rs`: in the source
a missing `data.streaks` and a failed `Vec<StreakWithMemberId>` parse
collapse into one error (`and_then(.. .ok()).context(..)`). -/
def fetch_streaks (rootUrl : Option String) (sendOk : Bool)
    (resp : HttpResponse) : Except ApiError (List StreakWithMemberId) :=
  match rootUrl with
  | none => .error .envMissing
  | some _ =>
    if sendOk = false then .error .sendFailed
    else if resp.status_success = false then .error .badStatus
    else
      match resp.body_json with
      | none => .error .parseJsonFailed
      | some j =>
        match ((j.get "data").bind (fun d => d.get "streaks")).bind
            (fun s => s.asArray.bind (List.mapM parseStreakWithId)) with
        | none => .error .malformedResponse
        | some streaks => .ok streaks

/-- Embeds `increment_streak` from `src/graphql/queries.rs`; the source
mutates `&mut Member`, modelled by returning the updated member. -/
def increment_streak (rootUrl : Option String) (sendOk : Bool)
    (resp : HttpResponse) (member : Member) : Except ApiError Member :=
  match rootUrl with
  | none => .error .envMissing
  | some _ =>
    if sendOk = false then .error .sendFailed
    else if resp.status_success = false then .error .badStatus
    else
      match resp.body_json with
      | none => .error .parseJsonFailed
      | some j =>
        match (j.get "data").bind (fun d => d.get "incrementStreak") with
        | none => .error .malformedResponse
        | some d =>
          match (d.get "currentStreak").bind Json.asI64,
              (d.get "maxStreak").bind Json.asI64 with
          | some cs, some ms =>
            let s : Streak := ⟨wrapI32 cs, wrapI32 ms⟩
            .ok { member with streak :=
              if member.streak.isEmpty then [s]
              else member.streak.map (fun _ => s) }
          | _, _ => .error .parseModelFailed

/-- Embeds `reset_streak` from `src/graphql/queries.rs`; identical
control flow to `increment_streak` with the `resetStreak` field. -/
def reset_streak (rootUrl : Option String) (sendOk : Bool)
    (resp : HttpResponse) (member : Member) : Except ApiError Member :=
  match rootUrl with
  | none => .error .envMissing
  | some _ =>
    if sendOk = false then .error .sendFailed
    else if resp.status_success = false then .error .badStatus
    else
      match resp.body_json with
      | none => .error .parseJsonFailed
      | some j =>
        match (j.get "data").bind (fun d => d.get "resetStreak") with
        | none => .error .malformedResponse
        | some d =>
          match (d.get "currentStreak").bind Json.asI64,
              (d.get "maxStreak").bind Json.asI64 with
          | some cs, some ms =>
            let s : Streak := ⟨wrapI32 cs, wrapI32 ms⟩
            .ok { member with streak :=
              if member.streak.isEmpty then [s]
              else member.streak.map (fun _ => s) }
          | _, _ => .error .parseModelFailed

/-! ## Task runs and fault propagation (`src/tasks.rs`) -/

/-- A Discord message, reduced to the fields the tasks inspect. -/
structure Message where
  author_id : String
  content : String
deriving DecidableEq

/-- The observable outcome of one invocation of a task's `run`: either
the body panicked (an uncaught fault crossed the job boundary) or it ran
to completion. -/
inductive RunOutcome where
  | panicked (msg : String)
  | completed
deriving DecidableEq

/-- Embeds `StatusUpdateCheck::run` from `src/tasks.rs` at the fault
boundary: the body begins with
`fetch_members().await.expect("Root must be up.")`, so a failed fetch
panics with that message; every later step of the body (per-channel
message fetches, list building, channel sends) handles or ignores its
errors (`match`/`println`, discarded `say` results) and cannot panic,
so a successful fetch completes. -/
def status_update_run_legacy
    (membersResult : Except ApiError (List String)) : RunOutcome :=
  match membersResult with
  | .error _ => .panicked "Root must be up."
  | .ok _ => .completed

/-! ## Host-timezone dependence of the attendance time logic
(`src/tasks/lab_attendance.rs`)

Instants are integer seconds since an epoch (UTC); a timezone is a
fixed offset in seconds east of UTC (Asia/Kolkata is +19800, and has no
daylight saving time). -/

/-- The instant of wall-clock time-of-day `hms` (seconds after
midnight) on the current date of the timezone with offset `tzOffset`,
where the current instant is `now`.  This is the meaning of chrono's
`with_ymd_and_hms(now.year, now.month, now.day, h, m, s)` in that
timezone. -/
def placed_on_today (now tzOffset hms : Int) : Int :=
  ((now + tzOffset).fdiv 86400) * 86400 + hms - tzOffset

/-- Modelled from the spec: `utils::time::get_five_forty_five_pm_timestamp`,
whose source file is not under src/; per the spec's
`most_recent_occurrence` clock utility and its call site
`get_five_forty_five_pm_timestamp(Local::now().with_timezone(&Asia::Kolkata))`,
it is today's 17:45:00 in the organizational timezone Asia/Kolkata. -/
def get_five_forty_five_pm_timestamp (now : Int) : Int :=
  placed_on_today now 19800 63900

/-- Embeds the date placement of `parse_time` from
`src/tasks/lab_attendance.rs`: the parsed `%H:%M:%S` time-of-day is
placed on today's date in the HOST's local timezone
(`Local::now()` / `Local.with_ymd_and_hms`), whose offset is
`hostOffset`. -/
def parse_time_instant (now hostOffset hms : Int) : Int :=
  placed_on_today now hostOffset hms

/-- Embeds the lateness comparison `time > threshold_time` of
`check_lab_attendance`: the host-local placement of the arrival
time-of-day is compared with today's 17:45 Asia/Kolkata. -/
def arrival_is_late (now hostOffset hms : Int) : Bool :=
  decide (parse_time_instant now hostOffset hms >
    get_five_forty_five_pm_timestamp now)

/-! ## Arrival-time string parsing (`parse_time`,
`src/tasks/lab_attendance.rs`) -/

/-- One numeric field of chrono's `%H`/`%M`/`%S`: greedily one or two
ASCII digits (chrono's `scan::number` with 1 to 2 digits). -/
def scanNum2 : List Char → Option (Nat × List Char)
  | [] => none
  | c :: rest =>
    if c.isDigit then
      match rest with
      | c2 :: rest2 =>
        if c2.isDigit then
          some ((c.toNat - 48) * 10 + (c2.toNat - 48), rest2)
        else some (c.toNat - 48, rest)
      | [] => some (c.toNat - 48, [])
    else none

/-- The literal `:` separator of the format string. -/
def expectColon : List Char → Option (List Char)
  | ':' :: rest => some rest
  | _ => none

/-- Embeds `NaiveTime::parse_from_str(s, "%H:%M:%S")`: two (or one)
digit fields separated by colons, each numeric field preceded by
chrono `parse_internal`'s leading-whitespace trim (`s.trim_start()`
before every `Numeric` item, so `" 7:45:00"` and `"17: 45:00"` parse),
the whole input consumed (no trailing item, so trailing whitespace is
an error), hour at most 23, minute at most 59, second at most 60 (60
being chrono's leap-second representation, whose `second()` accessor —
the value the source then feeds to `with_ymd_and_hms` — yields 59). -/
def parse_hms (cs : List Char) : Option (Nat × Nat × Nat) := do
  let (h, r1) ← scanNum2 (cs.dropWhile Char.isWhitespace)
  let r2 ← expectColon r1
  let (m, r3) ← scanNum2 (r2.dropWhile Char.isWhitespace)
  let r4 ← expectColon r3
  let (s, r5) ← scanNum2 (r4.dropWhile Char.isWhitespace)
  if r5 = [] ∧ h ≤ 23 ∧ m ≤ 59 ∧ s ≤ 60 then some (h, m, min s 59)
  else none

/-- Embeds `parse_time` from `src/tasks/lab_attendance.rs` up to the
date placement (covered by `parse_time_instant`): the input is cut at
the first `.` (`split('.').next().unwrap()`, which never panics because
`split` always yields a first piece), the prefix is parsed as
`%H:%M:%S`, and the parsed time-of-day is returned; a failed parse is
returned as `error` (chrono's `ParseError`, modelled as `Unit`). -/
def parse_time (s : String) : Except Unit (Nat × Nat × Nat) :=
  match parse_hms (s.toList.takeWhile (fun c => c ≠ '.')) with
  | some t => .ok t
  | none => .error ()

/-! ## Attendance classification (`check_lab_attendance`,
`src/tasks/lab_attendance.rs`) -/

/-- The outcome of one lab-attendance check: the two lists built by the
loop, and whether the lab-closed message (rather than the statistics
report) is sent. -/
structure LabCheckResult where
  absent : List AttendanceRecord
  late : List AttendanceRecord
  sends_lab_closed : Bool
deriving DecidableEq

/-- The loop's first branch condition:
`!record.is_present || record.time_in.is_none()`. -/
def is_absent_record (r : AttendanceRecord) : Bool :=
  !r.is_present || r.time_in.isNone

/-- The loop's second branch condition: present, with some `time_in`
that parses, whose placement is strictly after the threshold (in the
source this is the `else if let Some(time_str)` arm; the leading
`is_present` conjunct is implied there by the failed first branch). -/
def is_late_record (now hostOffset : Int) (r : AttendanceRecord) : Bool :=
  r.is_present &&
    match r.time_in with
    | some ts =>
      (match parse_time ts with
       | .ok (h, m, s) =>
           arrival_is_late now hostOffset (h * 3600 + m * 60 + s)
       | .error _ => false)
    | none => false

/-- Embeds `check_lab_attendance` from `src/tasks/lab_attendance.rs`
after a successful `fetch_attendance` (a failed fetch propagates as
`Err` through `?` and nothing below runs): each record is filed absent
or late by the loop, and the lab-closed message is chosen exactly when
`absent_list.len() == attendance.len()`. -/
def check_lab_attendance (now hostOffset : Int)
    (attendance : List AttendanceRecord) : LabCheckResult :=
  let lists := attendance.foldl
    (fun acc r =>
      if is_absent_record r then (acc.1 ++ [r], acc.2)
      else if is_late_record now hostOffset r then (acc.1, acc.2 ++ [r])
      else acc)
    ([], [])
  ⟨lists.1, lists.2, lists.1.length == attendance.length⟩

/-! ## Status-update member categorization (`categorize_members`,
`src/tasks/status_update.rs`) -/

/-- The `member.group_id as u64` cast: an i32 sign-extended and
reinterpreted as an unsigned 64-bit value, i.e. reduced modulo 2^64
into [0, 2^64). -/
def u64_of_i32 (x : Int) : Int :=
  x % 18446744073709551616

/-- The `HashSet<String>` of update authors:
`sent_updates.insert(message.author.id.to_string())` over all updates;
membership in the set is membership in this list. -/
def sent_authors (updates : List Message) : List String :=
  updates.map (fun msg => msg.author_id)

/-- The `naughty_list.entry(group).or_insert_with(Vec::new).push(member)`
operation of a `HashMap<u64, Vec<Member>>`, on an association-list
model: append to the existing group, or create a one-element group. -/
def push_group : List (Int × List Member) → Int → Member →
    List (Int × List Member)
  | [], k, m => [(k, [m])]
  | (k2, ms) :: rest, k, m =>
      if k2 = k then (k2, ms ++ [m]) :: rest
      else (k2, ms) :: push_group rest k m

/-- The members filed under key `k` (the empty list when the key is
absent). -/
def group_of : List (Int × List Member) → Int → List Member
  | [], _ => []
  | (k2, ms) :: rest, k => if k2 = k then ms else group_of rest k

/-- The total number of members over all groups of the map. -/
def total_size (l : List (Int × List Member)) : Nat :=
  (l.map (fun p => p.2.length)).sum

/-- Embeds `categorize_members` from `src/tasks/status_update.rs`:
members whose `discord_id` authored some update go to the nice list;
every other member is pushed into the naughty map under
`member.group_id as u64`.  Returns `(naughty_list, nice_list)` as the
source does. -/
def categorize_members (members : List Member) (updates : List Message) :
    List (Int × List Member) × List Member :=
  let sent := sent_authors updates
  members.foldl
    (fun acc m =>
      if sent.contains m.discord_id then (acc.1, acc.2 ++ [m])
      else (push_group acc.1 (u64_of_i32 m.group_id) m, acc.2))
    ([], [])

/-! ## Streak leaderboard (`find_highest_streak`,
`src/tasks/status_update.rs`) -/

/-- The streak value the loop inspects: `max_streak` for the all-time
leaderboard, `current_streak` otherwise. -/
def streak_value (is_all_time : Bool) (s : StreakWithMemberId) : Int :=
  if is_all_time then s.max_streak else s.current_streak

/-- Embeds `find_highest_streak` from `src/tasks/status_update.rs`:
starting from `(0, [])`, each streak whose `member_id` resolves in the
member map either raises the maximum (clearing the member list),
matches it (appending the member), or is skipped.  The
`HashMap<i32, &Member>` is modelled as the lookup function
`member_map`. -/
def find_highest_streak (streaks : List StreakWithMemberId)
    (member_map : Int → Option Member) (is_all_time : Bool) :
    Int × List Member :=
  streaks.foldl
    (fun acc streak =>
      match member_map streak.member_id with
      | some member =>
        let v := streak_value is_all_time streak
        if v > acc.1 then (v, [member])
        else if v = acc.1 then (acc.1, acc.2 ++ [member])
        else acc
      | none => acc)
    (0, [])

/-- The relevant streak values: those of streaks whose `member_id`
occurs in the member map. -/
def relevant_values (streaks : List StreakWithMemberId)
    (member_map : Int → Option Member) (is_all_time : Bool) : List Int :=
  streaks.filterMap
    (fun s => (member_map s.member_id).map
      (fun _ => streak_value is_all_time s))

/-- The members of the relevant streaks whose value equals `x`, in
streak order. -/
def matching_members (streaks : List StreakWithMemberId)
    (member_map : Int → Option Member) (is_all_time : Bool) (x : Int) :
    List Member :=
  (streaks.filter (fun s => (member_map s.member_id).isSome &&
      streak_value is_all_time s == x)).filterMap
    (fun s => member_map s.member_id)

end Amd

namespace Amd

/-- C2: for every valid `(hour, minute)` and every fixed now, if now is
strictly before that time-of-day today then `time_until` returns exactly
(target today - now); if now is at or after it, exactly (target tomorrow
- now); the result is never zero (hence never negative, being a `Nat`),
and when now equals the target instant exactly it is a full 24-hour
duration. -/
theorem c2_time_until_correct (now hour minute : Nat)
    (hh : hour < 24) (hm : minute < 60) :
    (now % 86400 < hour * 3600 + minute * 60 →
      time_until now hour minute =
        hour * 3600 + minute * 60 - now % 86400) ∧
    (hour * 3600 + minute * 60 ≤ now % 86400 →
      time_until now hour minute =
        (hour * 3600 + minute * 60 + 86400) - now % 86400) ∧
    0 < time_until now hour minute ∧
    (now % 86400 = hour * 3600 + minute * 60 →
      time_until now hour minute = 86400) := by
  have hmod : now % 86400 < 86400 := Nat.mod_lt _ (by norm_num)
  have htarget : hour * 3600 + minute * 60 < 86400 := by omega
  refine ⟨?_, ?_, ?_, ?_⟩
  · intro hlt
    simp only [time_until]
    rw [if_pos hlt]
  · intro hge
    simp only [time_until]
    rw [if_neg (by omega)]
  · simp only [time_until]
    by_cases hlt : now % 86400 < hour * 3600 + minute * 60
    · rw [if_pos hlt]; omega
    · rw [if_neg hlt]; omega
  · intro heq
    simp only [time_until]
    rw [if_neg (by omega)]
    omega

/-- Witness for C2 at the spec's own scenario: target 05:00, now 04:00
of day 0 (14400 s), expected delay one hour (3600 s). -/
theorem c2_time_until_correct_witness :
    (14400 % 86400 < 5 * 3600 + 0 * 60 →
      time_until 14400 5 0 = (5 * 3600 + 0 * 60) - 14400 % 86400) ∧
    time_until 14400 5 0 = 3600 := by
  refine ⟨(c2_time_until_correct 14400 5 0 (by decide) (by decide)).1, ?_⟩
  have h := (c2_time_until_correct 14400 5 0 (by decide) (by decide)).1
    (by decide)
  simpa using h

/-- C4: computing a job's `run_in()` is idempotent and pure: at a fixed
clock reading, every one of `k` successive calls returns the same
duration, and the result is a deterministic function of the clock
reading only, not of the call count. -/
theorem c4_run_in_idempotent (now k : Nat) :
    (∀ d ∈ run_in_calls now k, d = status_update_run_in now) ∧
    run_in_calls now k = List.replicate k (status_update_run_in now) := by
  constructor
  · intro d hd
    simp only [run_in_calls, List.mem_map] at hd
    obtain ⟨_, _, rfl⟩ := hd
    rfl
  · simp [run_in_calls, List.map_const]

/-- Witness for C4: three calls at a fixed clock reading all return the
same duration. -/
theorem c4_run_in_idempotent_witness :
    run_in_calls 14400 3 = List.replicate 3 (status_update_run_in 14400) :=
  (c4_run_in_idempotent 14400 3).2

theorem schedStep_preserves_singleFlight {a b : List JobState}
    (hstep : SchedStep a b)
    (ih : ∀ j ∈ a, j.singleFlight ∧ j.started ≤ j.completed + 1) :
    ∀ j ∈ b, j.singleFlight ∧ j.started ≤ j.completed + 1 := by
  cases hstep with
  | step i hi next h =>
      intro j hj
      rcases List.mem_or_eq_of_mem_set hj with hmem | rfl
      · exact ih j hmem
      · have hold := ih (a.get ⟨i, hi⟩) (a.get_mem _ _)
        have hsf := jobStep_preserves_singleFlight h hold.1
        refine ⟨hsf, ?_⟩
        obtain ⟨h1, h2⟩ := hsf
        by_cases hr : j.phase = .running
        · have := h1 hr
          omega
        · have := h2 hr
          omega

/-- C3: in every reachable scheduler state, every job's loop has at most
one execution in flight — run N+1 of a job never begins before run N of
the same job has completed (a job is in `running` phase exactly when one
more run has started than has completed, and otherwise the counts are
equal, so `started ≤ completed + 1` always). -/
theorem c3_single_inflight (s : List JobState) (hs : SchedReachable s) :
    ∀ j ∈ s, j.singleFlight ∧ j.started ≤ j.completed + 1 := by
  induction hs with
  | init n =>
      intro j hj
      have hj2 := List.eq_of_mem_replicate hj
      subst hj2
      exact ⟨⟨fun h => by simp at h, fun _ => rfl⟩, by simp⟩
  | step hreach hstep ih =>
      exact schedStep_preserves_singleFlight hstep ih

/-- Witness for C3: applied to the initial one-job scheduler state,
which is reachable by construction. -/
theorem c3_single_inflight_witness :
    JobState.singleFlight ⟨.idle, 0, 0⟩ ∧
      (⟨.idle, 0, 0⟩ : JobState).started ≤
        (⟨.idle, 0, 0⟩ : JobState).completed + 1 :=
  c3_single_inflight (List.replicate 1 ⟨.idle, 0, 0⟩)
    (SchedReachable.init 1) ⟨.idle, 0, 0⟩ (by decide)

/-- C5: every remote data API operation (`fetch_members`,
`fetch_streaks`, `increment_streak`, `reset_streak`) returns an error
value whenever the server responds with an unsuccessful HTTP status,
the response body is not JSON, or the JSON lacks the expected data
fields; there is no panicking path in any of these operations. -/
theorem c5_queries_error_not_panic (url : Option String) (sendOk : Bool)
    (resp : HttpResponse) (m : Member) :
    (resp.status_success = false →
      isError (fetch_members url sendOk resp) = true ∧
      isError (fetch_streaks url sendOk resp) = true ∧
      isError (increment_streak url sendOk resp m) = true ∧
      isError (reset_streak url sendOk resp m) = true) ∧
    (resp.body_json = none →
      isError (fetch_members url sendOk resp) = true ∧
      isError (fetch_streaks url sendOk resp) = true ∧
      isError (increment_streak url sendOk resp m) = true ∧
      isError (reset_streak url sendOk resp m) = true) ∧
    (∀ j, resp.body_json = some j →
      ((j.get "data").bind (fun d => d.get "members") = none →
        isError (fetch_members url sendOk resp) = true) ∧
      ((j.get "data").bind (fun d => d.get "streaks") = none →
        isError (fetch_streaks url sendOk resp) = true) ∧
      ((j.get "data").bind (fun d => d.get "incrementStreak") = none →
        isError (increment_streak url sendOk resp m) = true) ∧
      ((j.get "data").bind (fun d => d.get "resetStreak") = none →
        isError (reset_streak url sendOk resp m) = true)) := by
  obtain ⟨st, body⟩ := resp
  refine ⟨?_, ?_, ?_⟩
  · rintro rfl
    cases url <;> cases sendOk <;>
      simp [fetch_members, fetch_streaks, increment_streak, reset_streak,
        isError]
  · rintro rfl
    cases url <;> cases sendOk <;> cases st <;>
      simp [fetch_members, fetch_streaks, increment_streak, reset_streak,
        isError]
  · intro j hbody
    simp only at hbody
    subst hbody
    refine ⟨?_, ?_, ?_, ?_⟩ <;> intro hpath <;>
      cases url <;> cases sendOk <;> cases st <;>
      simp [fetch_members, fetch_streaks, increment_streak, reset_streak,
        isError, hpath]

/-- Witness for C5: at a concrete response whose HTTP status is
unsuccessful, all four operations return an error value. -/
theorem c5_queries_error_not_panic_witness :
    isError (fetch_members (some "url") true ⟨false, none⟩) = true ∧
    isError (fetch_streaks (some "url") true ⟨false, none⟩) = true ∧
    isError (increment_streak (some "url") true ⟨false, none⟩
      ⟨0, "a", "b", 0, []⟩) = true ∧
    isError (reset_streak (some "url") true ⟨false, none⟩
      ⟨0, "a", "b", 0, []⟩) = true :=
  (c5_queries_error_not_panic (some "url") true ⟨false, none⟩
    ⟨0, "a", "b", 0, []⟩).1 rfl

/-- C1: the claim that `run` never lets a fault cross the job boundary
is contradicted by `StatusUpdateCheck::run` in `src/tasks.rs`: when
`fetch_members` fails (e.g. the remote API is unreachable), the body's
`.expect("Root must be up.")` panics instead of returning a failure
value.  Evaluating the embedded run at a failed fetch exhibits the
panic. -/
theorem c1_legacy_run_panics_on_api_failure :
    status_update_run_legacy (.error .sendFailed) =
      .panicked "Root must be up." ∧
    status_update_run_legacy (.error .badStatus) =
      .panicked "Root must be up." := by
  exact ⟨rfl, rfl⟩

/-- C6: the claim that the jobs' time logic is independent of the host
process's timezone is contradicted by `parse_time` in
`src/tasks/lab_attendance.rs`, which places the arrival time-of-day on
the HOST-local date (`Local`), while the 17:45 threshold is placed in
Asia/Kolkata.  At the instant 12:00 UTC with arrival string
"12:20:00" (44400 s after midnight), a host configured to UTC
(offset 0) classifies the record late, while a host configured to
Asia/Kolkata (offset 19800) does not: same instant, same data,
different results. -/
theorem c6_lateness_depends_on_host_timezone :
    arrival_is_late 43200 0 44400 = true ∧
    arrival_is_late 43200 19800 44400 = false := by
  exact ⟨by decide, by decide⟩

theorem takeWhile_append_dot (t frac : List Char) (h : ∀ c ∈ t, c ≠ '.') :
    (t ++ '.' :: frac).takeWhile (fun c => c ≠ '.') = t := by
  induction t with
  | nil => simp [List.takeWhile]
  | cons c rest ih =>
      have hc : c ≠ '.' := h c (by simp)
      have hrest : ∀ x ∈ rest, x ≠ '.' := fun x hx => h x (by simp [hx])
      simp only [List.cons_append, List.takeWhile_cons]
      rw [if_pos (by simpa using hc)]
      rw [ih hrest]

theorem takeWhile_no_dot (t : List Char) (h : ∀ c ∈ t, c ≠ '.') :
    t.takeWhile (fun c => c ≠ '.') = t := by
  induction t with
  | nil => simp
  | cons c rest ih =>
      have hc : c ≠ '.' := h c (by simp)
      have hrest : ∀ x ∈ rest, x ≠ '.' := fun x hx => h x (by simp [hx])
      simp only [List.takeWhile_cons]
      rw [if_pos (by simpa using hc)]
      rw [ih hrest]

/-- C7: for every arrival-time string made of a dot-free prefix
optionally followed by `.` and a fractional part, `parse_time` drops
everything from the first `.` onward; it returns `ok` with the parsed
`%H:%M:%S` time-of-day exactly when the prefix parses, and a parse
error exactly when it does not. -/
theorem c7_parse_time_correct :
    (∀ (t frac : List Char), (∀ c ∈ t, c ≠ '.') →
      parse_time (String.mk (t ++ '.' :: frac)) =
        parse_time (String.mk t)) ∧
    (∀ t : List Char, (∀ c ∈ t, c ≠ '.') →
      parse_time (String.mk t) =
        match parse_hms t with
        | some tod => .ok tod
        | none => .error ()) := by
  constructor
  · intro t frac h
    show (match parse_hms ((t ++ '.' :: frac).takeWhile
        (fun c => c ≠ '.')) with
      | some tod => Except.ok tod
      | none => Except.error ()) = _
    rw [takeWhile_append_dot t frac h]
    show _ = (match parse_hms (t.takeWhile (fun c => c ≠ '.')) with
      | some tod => Except.ok tod
      | none => Except.error ())
    rw [takeWhile_no_dot t h]
  · intro t h
    show (match parse_hms (t.takeWhile (fun c => c ≠ '.')) with
      | some tod => Except.ok tod
      | none => Except.error ()) = _
    rw [takeWhile_no_dot t h]

/-- Witness for C7 at the concrete record time "17:50:30.5": the
fraction is dropped and the prefix parses to 17:50:30. -/
theorem c7_parse_time_correct_witness :
    parse_time (String.mk ("17:50:30".toList ++ '.' :: "5".toList)) =
      parse_time (String.mk "17:50:30".toList) ∧
    parse_time (String.mk "17:50:30".toList) = .ok (17, 50, 30) := by
  refine ⟨c7_parse_time_correct.1 "17:50:30".toList "5".toList
    (by decide), by rfl⟩

theorem absent_not_late (now ω : Int) (r : AttendanceRecord)
    (h : is_absent_record r = true) : is_late_record now ω r = false := by
  simp only [is_absent_record, Bool.or_eq_true, Bool.not_eq_true',
    Option.isNone_iff_eq_none] at h
  rcases h with h | h
  · simp [is_late_record, h]
  · simp [is_late_record, h]

theorem check_loop (now ω : Int) (l : List AttendanceRecord) :
    ∀ a b : List AttendanceRecord,
      l.foldl (fun acc r =>
        if is_absent_record r then (acc.1 ++ [r], acc.2)
        else if is_late_record now ω r then (acc.1, acc.2 ++ [r])
        else acc) (a, b) =
      (a ++ l.filter is_absent_record,
       b ++ l.filter (is_late_record now ω)) := by
  induction l with
  | nil => intro a b; simp
  | cons r rest ih =>
      intro a b
      by_cases habs : is_absent_record r = true
      · have hlate := absent_not_late now ω r habs
        simp only [List.foldl_cons, List.filter_cons, habs, hlate,
          if_true, Bool.false_eq_true, if_false]
        rw [ih]
        simp
      · have habs2 : is_absent_record r = false :=
          Bool.not_eq_true _ ▸ (by simpa using habs)
        by_cases hlate : is_late_record now ω r = true
        · simp only [List.foldl_cons, List.filter_cons, habs2, hlate,
            Bool.false_eq_true, if_false, if_true]
          rw [ih]
          simp
        · have hlate2 : is_late_record now ω r = false := by
            simpa using hlate
          simp only [List.foldl_cons, List.filter_cons, habs2, hlate2,
            Bool.false_eq_true, if_false]
          rw [ih]

theorem check_lab_attendance_eq (now ω : Int)
    (l : List AttendanceRecord) :
    check_lab_attendance now ω l =
      ⟨l.filter is_absent_record, l.filter (is_late_record now ω),
        (l.filter is_absent_record).length == l.length⟩ := by
  simp only [check_lab_attendance]
  rw [check_loop now ω l]
  simp

/-- C9: the check classifies a fetched record as absent iff it is not
present or has no arrival time, and as late iff it is present with a
parseable arrival time strictly after the 17:45 threshold (stated for a
host running in the organizational timezone, offset 19800 s); the
lab-closed message is sent iff the absent count equals the record
count, and in particular an empty attendance list sends the lab-closed
message. -/
theorem c9_lab_attendance_classification (now ω : Int)
    (attendance : List AttendanceRecord) :
    (check_lab_attendance now ω attendance).absent =
      attendance.filter is_absent_record ∧
    (check_lab_attendance now ω attendance).late =
      attendance.filter (is_late_record now ω) ∧
    ((check_lab_attendance now ω attendance).sends_lab_closed = true ↔
      (attendance.filter is_absent_record).length = attendance.length) ∧
    (check_lab_attendance now ω []).sends_lab_closed = true ∧
    (∀ r : AttendanceRecord, is_absent_record r = true ↔
      (r.is_present = false ∨ r.time_in = none)) ∧
    (∀ (r : AttendanceRecord) (ts : String) (h m s : Nat),
      r.is_present = true → r.time_in = some ts →
      parse_time ts = .ok (h, m, s) →
      (is_late_record now 19800 r = true ↔
        h * 3600 + m * 60 + s > 63900)) := by
  refine ⟨?_, ?_, ?_, ?_, ?_, ?_⟩
  · rw [check_lab_attendance_eq]
  · rw [check_lab_attendance_eq]
  · rw [check_lab_attendance_eq]
    simp [beq_iff_eq]
  · rw [check_lab_attendance_eq]
    simp
  · intro r
    simp [is_absent_record, Option.isNone_iff_eq_none]
  · intro r ts h m s hp ht hparse
    simp only [is_late_record, hp, ht, hparse, Bool.true_and]
    simp only [arrival_is_late, parse_time_instant,
      get_five_forty_five_pm_timestamp, placed_on_today,
      decide_eq_true_eq, gt_iff_lt]
    generalize (now + 19800).fdiv 86400 = K
    omega

/-- Witness for C9: a record arriving at 17:46:00 with the host in the
organizational timezone is late iff its time-of-day in seconds exceeds
63900, i.e. 17:45:00. -/
theorem c9_lab_attendance_classification_witness :
    is_late_record 0 19800 ⟨"X", 2, true, some "17:46:00"⟩ = true ↔
      17 * 3600 + 46 * 60 + 0 > 63900 :=
  (c9_lab_attendance_classification 0 19800 []).2.2.2.2.2
    ⟨"X", 2, true, some "17:46:00"⟩ "17:46:00" 17 46 0 rfl rfl (by rfl)

theorem group_of_push (l : List (Int × List Member)) (k : Int)
    (m : Member) (k2 : Int) :
    group_of (push_group l k m) k2 =
      if k2 = k then group_of l k ++ [m] else group_of l k2 := by
  induction l with
  | nil =>
      simp only [push_group, group_of]
      by_cases h : k2 = k
      · subst h; simp
      · rw [if_neg (fun hh => h hh.symm), if_neg h]
  | cons p rest ih =>
      obtain ⟨k1, ms⟩ := p
      simp only [push_group]
      by_cases h1 : k1 = k
      · subst h1
        rw [if_pos rfl]
        simp only [group_of]
        by_cases h2 : k2 = k1
        · subst h2; simp
        · rw [if_neg (fun hh => h2 hh.symm), if_neg h2,
              if_neg (fun hh => h2 hh.symm)]
      · rw [if_neg h1]
        simp only [group_of]
        rw [ih]
        by_cases h2 : k1 = k2
        · subst h2
          rw [if_pos rfl, if_neg h1, if_pos rfl]
        · rw [if_neg h2]
          by_cases h3 : k2 = k
          · rw [if_pos h3, if_pos h3, if_neg h1]
          · rw [if_neg h3, if_neg h3, if_neg h2]

theorem total_size_push (l : List (Int × List Member)) (k : Int)
    (m : Member) :
    total_size (push_group l k m) = total_size l + 1 := by
  induction l with
  | nil => simp [push_group, total_size]
  | cons p rest ih =>
      obtain ⟨k1, ms⟩ := p
      simp only [push_group]
      by_cases h1 : k1 = k
      · rw [if_pos h1]
        simp [total_size]
        omega
      · rw [if_neg h1]
        simp [total_size] at ih ⊢
        omega

theorem categorize_loop (sent : List String) (members : List Member) :
    ∀ (ng : List (Int × List Member)) (nice : List Member),
      (members.foldl
        (fun acc m =>
          if sent.contains m.discord_id then (acc.1, acc.2 ++ [m])
          else (push_group acc.1 (u64_of_i32 m.group_id) m, acc.2))
        (ng, nice)).2 =
        nice ++ members.filter (fun m => sent.contains m.discord_id) ∧
      (∀ k, group_of (members.foldl
        (fun acc m =>
          if sent.contains m.discord_id then (acc.1, acc.2 ++ [m])
          else (push_group acc.1 (u64_of_i32 m.group_id) m, acc.2))
        (ng, nice)).1 k =
        group_of ng k ++ members.filter (fun m =>
          !sent.contains m.discord_id && u64_of_i32 m.group_id == k)) ∧
      total_size (members.foldl
        (fun acc m =>
          if sent.contains m.discord_id then (acc.1, acc.2 ++ [m])
          else (push_group acc.1 (u64_of_i32 m.group_id) m, acc.2))
        (ng, nice)).1 =
        total_size ng + (members.filter
          (fun m => !sent.contains m.discord_id)).length := by
  induction members with
  | nil => intro ng nice; simp
  | cons m rest ih =>
      intro ng nice
      by_cases hc : sent.contains m.discord_id = true
      · simp only [List.foldl_cons, hc, if_true, List.filter_cons,
          Bool.not_true, Bool.false_and, Bool.false_eq_true, if_false]
        obtain ⟨ih1, ih2, ih3⟩ := ih ng (nice ++ [m])
        refine ⟨?_, ?_, ?_⟩
        · rw [ih1]; simp
        · intro k; exact ih2 k
        · exact ih3
      · have hc2 : sent.contains m.discord_id = false := by
          simpa using hc
        simp only [List.foldl_cons, hc2, Bool.false_eq_true, if_false,
          List.filter_cons, Bool.not_false, Bool.true_and, if_true]
        obtain ⟨ih1, ih2, ih3⟩ :=
          ih (push_group ng (u64_of_i32 m.group_id) m) nice
        refine ⟨?_, ?_, ?_⟩
        · exact ih1
        · intro k
          rw [ih2 k, group_of_push]
          by_cases hk : u64_of_i32 m.group_id = k
          · subst hk
            rw [if_pos rfl]
            simp
          · rw [if_neg (fun hh => hk hh.symm)]
            simp [hk]
        · rw [ih3, total_size_push]
          simp
          omega

theorem filter_length_split (members : List Member) (p : Member → Bool) :
    (members.filter p).length +
      (members.filter (fun m => !p m)).length = members.length := by
  induction members with
  | nil => rfl
  | cons m rest ih =>
      by_cases h : p m = true <;>
        simp [List.filter_cons, h] <;> omega

/-- C8 counterexample: the claim files each non-sender "under the key
equal to its group_id", but the source casts `group_id as u64`; a
member with `group_id = -1` is filed under 2^64 - 1, and no entry
exists under -1. -/
theorem c8_group_key_counterexample :
    group_of (categorize_members [⟨1, "A", "d1", -1, []⟩] []).1
      (-1) = [] ∧
    group_of (categorize_members [⟨1, "A", "d1", -1, []⟩] []).1
      18446744073709551615 = [⟨1, "A", "d1", -1, []⟩] := by
  exact ⟨by rfl, by rfl⟩

/-- C8 (amended): `categorize_members` partitions the member list: a
member lands in the nice list iff its `discord_id` authored some
update, and otherwise appears exactly once in the naughty map under the
key `group_id as u64` (equal to `group_id` whenever `group_id ≥ 0`);
the nice-list length plus the total size of all naughty groups is the
number of input members. -/
theorem c8_categorize_partition (members : List Member)
    (updates : List Message) :
    (categorize_members members updates).2 =
      members.filter
        (fun m => (sent_authors updates).contains m.discord_id) ∧
    (∀ k, group_of (categorize_members members updates).1 k =
      members.filter (fun m =>
        !(sent_authors updates).contains m.discord_id &&
        u64_of_i32 m.group_id == k)) ∧
    (categorize_members members updates).2.length +
      total_size (categorize_members members updates).1 =
      members.length := by
  obtain ⟨h1, h2, h3⟩ :=
    categorize_loop (sent_authors updates) members [] []
  refine ⟨?_, ?_, ?_⟩
  · simpa [categorize_members] using h1
  · intro k
    have := h2 k
    simpa [categorize_members, group_of] using this
  · have hsplit := filter_length_split members
      (fun m => (sent_authors updates).contains m.discord_id)
    have h1l : (categorize_members members updates).2.length =
        (members.filter
          (fun m => (sent_authors updates).contains m.discord_id)).length := by
      rw [show (categorize_members members updates).2 =
        members.filter
          (fun m => (sent_authors updates).contains m.discord_id) from by
        simpa [categorize_members] using h1]
    have h3l : total_size (categorize_members members updates).1 =
        (members.filter (fun m =>
          !(sent_authors updates).contains m.discord_id)).length := by
      simpa [categorize_members, total_size] using h3
    rw [h1l, h3l]
    exact hsplit

theorem le_foldl_max (l : List Int) : ∀ v : Int, v ≤ l.foldl max v := by
  induction l with
  | nil => intro v; simp
  | cons x rest ih =>
      intro v
      simpa using le_trans (le_max_left v x) (ih (max v x))

theorem fhs_loop (member_map : Int → Option Member) (b : Bool)
    (streaks : List StreakWithMemberId) :
    ∀ (v : Int) (ms : List Member),
      streaks.foldl
        (fun acc streak =>
          match member_map streak.member_id with
          | some member =>
            let w := streak_value b streak
            if w > acc.1 then (w, [member])
            else if w = acc.1 then (acc.1, acc.2 ++ [member])
            else acc
          | none => acc)
        (v, ms) =
      ((relevant_values streaks member_map b).foldl max v,
       (if (relevant_values streaks member_map b).foldl max v = v
          then ms else []) ++
        matching_members streaks member_map b
          ((relevant_values streaks member_map b).foldl max v)) := by
  induction streaks with
  | nil =>
      intro v ms
      simp [relevant_values, matching_members]
  | cons s rest ih =>
      intro v ms
      rcases hmem : member_map s.member_id with _ | member
      · simp only [List.foldl_cons, hmem]
        rw [ih v ms]
        simp [relevant_values, matching_members, hmem,
          List.filterMap_cons, List.filter_cons]
      · have hrel : relevant_values (s :: rest) member_map b =
            streak_value b s :: relevant_values rest member_map b := by
          simp [relevant_values, List.filterMap_cons, hmem]
        have hmatch : ∀ x, matching_members (s :: rest) member_map b x =
            (if streak_value b s = x then [member] else []) ++
              matching_members rest member_map b x := by
          intro x
          simp only [matching_members, List.filter_cons, hmem,
            Option.isSome_some, Bool.true_and]
          by_cases hx : streak_value b s = x
          · simp [hx, List.filterMap_cons, hmem]
          · simp [hx, beq_iff_eq]
        simp only [List.foldl_cons, hmem, hrel, List.foldl_cons]
        by_cases hgt : streak_value b s > v
        · rw [if_pos hgt]
          rw [ih (streak_value b s) [member]]
          rw [max_eq_right (le_of_lt hgt)]
          have hge : streak_value b s ≤
              (relevant_values rest member_map b).foldl max
                (streak_value b s) :=
            le_foldl_max _ _
          have hnev : (relevant_values rest member_map b).foldl max
              (streak_value b s) ≠ v := by
            intro hv; omega
          rw [if_neg hnev, hmatch]
          by_cases hfin : (relevant_values rest member_map b).foldl max
              (streak_value b s) = streak_value b s
          · rw [if_pos hfin, if_pos hfin.symm]
            simp
          · rw [if_neg hfin, if_neg (fun hh => hfin hh.symm)]
            simp
        · rw [if_neg hgt]
          by_cases heq : streak_value b s = v
          · rw [if_pos heq, heq]
            rw [ih v (ms ++ [member])]
            rw [max_self]
            rw [hmatch]
            by_cases hfin : (relevant_values rest member_map b).foldl
                max v = v
            · rw [if_pos hfin, if_pos hfin, if_pos (by rw [heq, hfin])]
              simp
            · rw [if_neg hfin, if_neg hfin,
                  if_neg (fun hh => hfin (hh.symm.trans heq))]
              simp
          · rw [if_neg heq]
            rw [ih v ms]
            have hlt : streak_value b s < v := by
              rcases lt_trichotomy (streak_value b s) v with h | h | h
              · exact h
              · exact absurd h heq
              · exact absurd h hgt
            rw [max_eq_left (le_of_lt hlt)]
            have hge : v ≤ (relevant_values rest member_map b).foldl
                max v := le_foldl_max _ _
            rw [hmatch]
            rw [if_neg (by omega : ¬streak_value b s =
              (relevant_values rest member_map b).foldl max v)]
            simp

/-- C10: `find_highest_streak` returns the maximum of 0 and the
relevant streak values (current or max, restricted to streaks whose
`member_id` occurs in the member map), together with exactly the
members of the relevant streaks whose value equals that maximum; the
reported highest streak is never negative, and when every relevant
value is negative the returned member list is empty. -/
theorem c10_find_highest_streak_correct
    (streaks : List StreakWithMemberId)
    (member_map : Int → Option Member) (is_all_time : Bool) :
    (find_highest_streak streaks member_map is_all_time).1 =
      (relevant_values streaks member_map is_all_time).foldl max 0 ∧
    (find_highest_streak streaks member_map is_all_time).2 =
      matching_members streaks member_map is_all_time
        (find_highest_streak streaks member_map is_all_time).1 ∧
    0 ≤ (find_highest_streak streaks member_map is_all_time).1 ∧
    ((∀ s ∈ streaks, (member_map s.member_id).isSome = true →
        streak_value is_all_time s < 0) →
      (find_highest_streak streaks member_map is_all_time).2 = []) := by
  have hloop := fhs_loop member_map is_all_time streaks 0 []
  have heq : find_highest_streak streaks member_map is_all_time =
      ((relevant_values streaks member_map is_all_time).foldl max 0,
       (if (relevant_values streaks member_map is_all_time).foldl max 0
          = 0 then [] else []) ++
        matching_members streaks member_map is_all_time
          ((relevant_values streaks member_map is_all_time).foldl
            max 0)) := by
    simpa [find_highest_streak] using hloop
  have hfst : (find_highest_streak streaks member_map is_all_time).1 =
      (relevant_values streaks member_map is_all_time).foldl max 0 := by
    rw [heq]
  have hpos : 0 ≤ (find_highest_streak streaks member_map
      is_all_time).1 := by
    rw [hfst]; exact le_foldl_max _ _
  have hsnd : (find_highest_streak streaks member_map is_all_time).2 =
      matching_members streaks member_map is_all_time
        ((find_highest_streak streaks member_map is_all_time).1) := by
    rw [heq]
    simp
  refine ⟨hfst, hsnd, hpos, ?_⟩
  intro hneg
  rw [hsnd]
  have hfilter : streaks.filter (fun s =>
      (member_map s.member_id).isSome &&
      streak_value is_all_time s ==
        (find_highest_streak streaks member_map is_all_time).1) = [] := by
    rw [List.filter_eq_nil_iff]
    intro s hs
    by_cases hsome : (member_map s.member_id).isSome = true
    · have hv := hneg s hs hsome
      have : ¬(streak_value is_all_time s =
          (find_highest_streak streaks member_map is_all_time).1) := by
        omega
      simp [hsome, beq_iff_eq, this]
    · simp [Bool.eq_false_iff.mpr hsome]
  simp [matching_members, hfilter]

/-- Witness for C10: a single relevant streak with negative current
value yields an empty member list. -/
theorem c10_find_highest_streak_correct_witness :
    (find_highest_streak [⟨1, -3, -2⟩]
      (fun i => if i = 1 then some ⟨1, "A", "d", 0, []⟩ else none)
      false).2 = [] :=
  (c10_find_highest_streak_correct [⟨1, -3, -2⟩]
    (fun i => if i = 1 then some ⟨1, "A", "d", 0, []⟩ else none)
    false).2.2.2 (by decide)

end Amd
